import Mathlib

set_option linter.unusedSectionVars false

/-!
Shallow embedding of `cargo-vendor-checksum` (src/main.rs) and proofs about it.

The tool keeps per-package `.cargo-checksum.json` manifests in a vendor tree
in sync with on-disk file contents.  We model:

  * filesystem paths as lists of segments (`Pth`), ordered lexicographically
    segment by segment (mirroring `std::path::Path` component ordering);
  * Rust `BTreeMap` as a strictly sorted association list with
    `insertSorted` / `eraseKey` / `lookupKey`;
  * the filesystem and the two external crates (`sha256`, the text-level
    phase of `serde_json`) as an abstract environment `Sys`;
  * the functions of src/main.rs (`Checksum::new`, `Checksum::write`,
    `get_packages`, `write_checksums`, `process_files_in_vendor_dir`,
    `process_packages`, `main`) as Lean functions over `Sys`.
-/

/-! ## Paths and lexicographic boolean orders -/

/-- A filesystem path, as its list of components (what `Path::iter` yields). -/
abbrev Pth := List String

/-- Display a path the way `Path::display` renders it on Unix. -/
def displayPth (p : Pth) : String := String.intercalate "/" p

/-- Boolean strict lexicographic order on lists, from a strict order on
elements.  Used at two levels: characters inside a segment, and segments
inside a path (mirroring `Ord for std::path::Path`, component-wise). -/
def lexLt {σ : Type} (lt : σ → σ → Bool) : List σ → List σ → Bool
  | [], [] => false
  | [], _ :: _ => true
  | _ :: _, [] => false
  | a :: as, b :: bs => if lt a b then true else if lt b a then false else lexLt lt as bs

/-- Boolean strict order on characters (by code point, as byte order does
for ASCII). -/
def charLt (a b : Char) : Bool := decide (a < b)

/-- Boolean strict order on path segments, mirroring `OsStr` ordering. -/
def segLt (a b : String) : Bool := lexLt charLt a.data b.data

/-- Boolean strict order on paths, mirroring `Ord for PathBuf`
(component-wise lexicographic). -/
def pthLt : Pth → Pth → Bool := lexLt segLt

section LexFacts

variable {σ : Type} {lt : σ → σ → Bool}

theorem eq_of_not_lt
    (hconn : ∀ a b : σ, a ≠ b → lt a b = true ∨ lt b a = true)
    {a b : σ} (h₁ : lt a b = false) (h₂ : lt b a = false) : a = b := by
  by_contra hne
  rcases hconn a b hne with h | h
  · rw [h₁] at h; exact Bool.noConfusion h
  · rw [h₂] at h; exact Bool.noConfusion h

theorem lexLt_irrefl (hirr : ∀ a : σ, lt a a = false) :
    ∀ l, lexLt lt l l = false := by
  intro l
  induction l with
  | nil => rfl
  | cons a as ih => simp [lexLt, hirr a, ih]

theorem lexLt_trans
    (htr : ∀ a b c : σ, lt a b = true → lt b c = true → lt a c = true)
    (hconn : ∀ a b : σ, a ≠ b → lt a b = true ∨ lt b a = true) :
    ∀ {l₁ l₂ l₃ : List σ}, lexLt lt l₁ l₂ = true → lexLt lt l₂ l₃ = true →
      lexLt lt l₁ l₃ = true := by
  intro l₁
  induction l₁ with
  | nil =>
    intro l₂ l₃ h₁ h₂
    cases l₂ with
    | nil => exact h₂
    | cons b bs =>
      cases l₃ with
      | nil => simp [lexLt] at h₂
      | cons c cs => rfl
  | cons a as ih =>
    intro l₂ l₃ h₁ h₂
    cases l₂ with
    | nil => simp [lexLt] at h₁
    | cons b bs =>
      cases l₃ with
      | nil => simp [lexLt] at h₂
      | cons c cs =>
        simp only [lexLt] at h₁ h₂ ⊢
        by_cases hab : lt a b = true
        · by_cases hbc : lt b c = true
          · simp [htr a b c hab hbc]
          · simp only [Bool.not_eq_true] at hbc
            simp only [hbc, if_false] at h₂
            by_cases hcb : lt c b = true
            · simp [hcb] at h₂
            · simp only [Bool.not_eq_true] at hcb
              have : b = c := eq_of_not_lt hconn hbc hcb
              subst this
              simp [hab]
        · simp only [Bool.not_eq_true] at hab
          simp only [hab, if_false] at h₁
          by_cases hba : lt b a = true
          · simp [hba] at h₁
          · simp only [Bool.not_eq_true] at hba
            simp only [hba, if_false] at h₁
            have : a = b := eq_of_not_lt hconn hab hba
            subst this
            by_cases hac : lt a c = true
            · simp [hac]
            · simp only [Bool.not_eq_true] at hac
              simp only [hac, if_false] at h₂ ⊢
              by_cases hca : lt c a = true
              · simp [hca] at h₂
              · simp only [Bool.not_eq_true] at hca
                simp only [hca, if_false] at h₂ ⊢
                exact ih h₁ h₂

theorem lexLt_conn
    (hconn : ∀ a b : σ, a ≠ b → lt a b = true ∨ lt b a = true) :
    ∀ {l₁ l₂ : List σ}, l₁ ≠ l₂ →
      lexLt lt l₁ l₂ = true ∨ lexLt lt l₂ l₁ = true := by
  intro l₁
  induction l₁ with
  | nil =>
    intro l₂ hne
    cases l₂ with
    | nil => exact absurd rfl hne
    | cons b bs => left; rfl
  | cons a as ih =>
    intro l₂ hne
    cases l₂ with
    | nil => right; rfl
    | cons b bs =>
      simp only [lexLt]
      by_cases hab : lt a b = true
      · left; simp [hab]
      · simp only [Bool.not_eq_true] at hab
        by_cases hba : lt b a = true
        · right; simp [hba]
        · simp only [Bool.not_eq_true] at hba
          have heq : a = b := eq_of_not_lt hconn hab hba
          subst heq
          have htl : as ≠ bs := by
            intro h; exact hne (by rw [h])
          simpa [hab, hba] using ih htl

end LexFacts

theorem charLt_irrefl (a : Char) : charLt a a = false := by
  simp [charLt]

theorem charLt_trans {a b c : Char}
    (h₁ : charLt a b = true) (h₂ : charLt b c = true) : charLt a c = true := by
  simp only [charLt, decide_eq_true_eq] at *
  exact lt_trans h₁ h₂

theorem charLt_conn {a b : Char} (h : a ≠ b) :
    charLt a b = true ∨ charLt b a = true := by
  simp only [charLt, decide_eq_true_eq]
  exact lt_or_gt_of_ne h

theorem segLt_irrefl (a : String) : segLt a a = false :=
  lexLt_irrefl charLt_irrefl a.data

theorem segLt_trans {a b c : String}
    (h₁ : segLt a b = true) (h₂ : segLt b c = true) : segLt a c = true := by
  unfold segLt at h₁ h₂ ⊢
  exact @lexLt_trans Char charLt (fun _ _ _ h h' => charLt_trans h h')
    (fun _ _ h => charLt_conn h) _ _ _ h₁ h₂

theorem segLt_conn {a b : String} (h : a ≠ b) :
    segLt a b = true ∨ segLt b a = true := by
  unfold segLt
  exact @lexLt_conn Char charLt (fun _ _ h' => charLt_conn h') _ _
    (fun hd => h (String.ext hd))

theorem pthLt_irrefl (a : Pth) : pthLt a a = false :=
  lexLt_irrefl segLt_irrefl a

theorem pthLt_trans {a b c : Pth}
    (h₁ : pthLt a b = true) (h₂ : pthLt b c = true) : pthLt a c = true := by
  unfold pthLt at h₁ h₂ ⊢
  exact @lexLt_trans String segLt (fun _ _ _ h h' => segLt_trans h h')
    (fun _ _ h => segLt_conn h) _ _ _ h₁ h₂

theorem pthLt_conn {a b : Pth} (h : a ≠ b) :
    pthLt a b = true ∨ pthLt b a = true := by
  unfold pthLt
  exact @lexLt_conn String segLt (fun _ _ h' => segLt_conn h') _ _ h

/-! ## Sorted association lists: the `BTreeMap` model -/

section SortedMap

variable {κ ν : Type} [DecidableEq κ]

/-- A `BTreeMap` is modelled as a strictly `lt`-sorted association list. -/
def SortedBy (lt : κ → κ → Bool) (m : List (κ × ν)) : Prop :=
  List.Pairwise (fun a b => lt a.1 b.1 = true) m

/-- `BTreeMap::insert`: insert or overwrite, keeping the list sorted. -/
def insertSorted (lt : κ → κ → Bool) (k : κ) (v : ν) :
    List (κ × ν) → List (κ × ν)
  | [] => [(k, v)]
  | (k', v') :: rest =>
    if lt k k' then (k, v) :: (k', v') :: rest
    else if k = k' then (k, v) :: rest
    else (k', v') :: insertSorted lt k v rest

/-- `BTreeMap::remove`: drop the (unique, if sorted) binding of `k`. -/
def eraseKey (k : κ) : List (κ × ν) → List (κ × ν)
  | [] => []
  | (k', v') :: rest => if k = k' then rest else (k', v') :: eraseKey k rest

/-- `BTreeMap::get`. -/
def lookupKey (k : κ) : List (κ × ν) → Option ν
  | [] => none
  | (k', v') :: rest => if k = k' then some v' else lookupKey k rest

/-- `BTreeMap::keys` (as a list, in map order). -/
def keysOf (m : List (κ × ν)) : List κ := m.map Prod.fst

theorem mem_insertSorted (lt : κ → κ → Bool) (k : κ) (v : ν) :
    ∀ {m : List (κ × ν)} {x}, x ∈ insertSorted lt k v m → x = (k, v) ∨ x ∈ m := by
  intro m
  induction m with
  | nil => intro x hx; simp [insertSorted] at hx; exact Or.inl hx
  | cons hd rest ih =>
    intro x hx
    obtain ⟨k', v'⟩ := hd
    simp only [insertSorted] at hx
    by_cases h₁ : lt k k' = true
    · simp [h₁] at hx
      rcases hx with h | h | h
      · exact Or.inl (by simp [h])
      · exact Or.inr (by simp [h])
      · exact Or.inr (by simp [h])
    · simp only [h₁, if_false, Bool.false_eq_true] at hx
      by_cases h₂ : k = k'
      · simp [h₂] at hx
        rcases hx with h | h
        · exact Or.inl (by simp [h, h₂])
        · exact Or.inr (by simp [h])
      · simp [h₂] at hx
        rcases hx with h | h
        · exact Or.inr (by simp [h])
        · rcases ih h with h' | h'
          · exact Or.inl h'
          · exact Or.inr (by simp [h'])

theorem mem_eraseKey (k : κ) :
    ∀ {m : List (κ × ν)} {x}, x ∈ eraseKey k m → x ∈ m := by
  intro m
  induction m with
  | nil => intro x hx; simp [eraseKey] at hx
  | cons hd rest ih =>
    intro x hx
    obtain ⟨k', v'⟩ := hd
    simp only [eraseKey] at hx
    by_cases h : k = k'
    · simp [h] at hx; exact List.mem_cons_of_mem _ hx
    · simp [h] at hx
      rcases hx with h' | h'
      · simp [h']
      · exact List.mem_cons_of_mem _ (ih h')

theorem lookupKey_insertSorted (lt : κ → κ → Bool) (k k' : κ) (v : ν) :
    ∀ m : List (κ × ν), lookupKey k' (insertSorted lt k v m)
      = if k' = k then some v else lookupKey k' m := by
  intro m
  induction m with
  | nil => simp [insertSorted, lookupKey]
  | cons hd rest ih =>
    obtain ⟨k₀, v₀⟩ := hd
    simp only [insertSorted]
    by_cases h₁ : lt k k₀ = true
    · simp [h₁, lookupKey]
    · simp only [h₁, if_false, Bool.false_eq_true]
      by_cases h₂ : k = k₀
      · subst h₂
        simp only [lookupKey]
        by_cases h₃ : k' = k
        · simp [h₃]
        · simp [h₃]
      · simp only [h₂, if_false]
        simp only [lookupKey]
        by_cases h₃ : k' = k₀
        · subst h₃
          simp [Ne.symm h₂]
        · simp [h₃, ih]

theorem lookupKey_eq_none_of_ne
    (k : κ) :
    ∀ {m : List (κ × ν)}, (∀ x ∈ m, x.1 ≠ k) → lookupKey k m = none := by
  intro m
  induction m with
  | nil => intro _; rfl
  | cons hd rest ih =>
    intro h
    obtain ⟨k', v'⟩ := hd
    simp only [lookupKey]
    have : k ≠ k' := fun he => (h (k', v') (by simp)) (by simp [he])
    simp [this]
    exact ih (fun x hx => h x (by simp [hx]))

theorem sortedBy_insertSorted (lt : κ → κ → Bool)
    (htr : ∀ a b c : κ, lt a b = true → lt b c = true → lt a c = true)
    (hconn : ∀ a b : κ, a ≠ b → lt a b = true ∨ lt b a = true)
    (k : κ) (v : ν) :
    ∀ {m : List (κ × ν)}, SortedBy lt m → SortedBy lt (insertSorted lt k v m) := by
  intro m
  induction m with
  | nil => intro _; simp [insertSorted, SortedBy]
  | cons hd rest ih =>
    intro hs
    obtain ⟨k₀, v₀⟩ := hd
    rw [SortedBy, List.pairwise_cons] at hs
    obtain ⟨hall, hrest⟩ := hs
    simp only [insertSorted]
    by_cases h₁ : lt k k₀ = true
    · rw [if_pos h₁]
      rw [SortedBy, List.pairwise_cons]
      refine ⟨?_, ?_⟩
      · intro b hb
        rcases List.mem_cons.mp hb with h | h
        · simp [h, h₁]
        · exact htr _ _ _ h₁ (hall b h)
      · rw [List.pairwise_cons]
        exact ⟨hall, hrest⟩
    · rw [if_neg h₁]
      by_cases h₂ : k = k₀
      · rw [if_pos h₂]
        subst h₂
        rw [SortedBy, List.pairwise_cons]
        exact ⟨hall, hrest⟩
      · rw [if_neg h₂]
        have hk₀k : lt k₀ k = true := by
          rcases hconn k k₀ h₂ with h | h
          · exact absurd h h₁
          · exact h
        rw [SortedBy, List.pairwise_cons]
        refine ⟨?_, ih hrest⟩
        intro b hb
        rcases mem_insertSorted lt k v hb with h | h
        · simp [h, hk₀k]
        · exact hall b h

theorem sortedBy_eraseKey (lt : κ → κ → Bool) (k : κ) :
    ∀ {m : List (κ × ν)}, SortedBy lt m → SortedBy lt (eraseKey k m) := by
  intro m
  induction m with
  | nil => intro h; exact h
  | cons hd rest ih =>
    intro hs
    obtain ⟨k₀, v₀⟩ := hd
    rw [SortedBy, List.pairwise_cons] at hs
    obtain ⟨hall, hrest⟩ := hs
    simp only [eraseKey]
    by_cases h : k = k₀
    · simp only [h, if_pos rfl]
      exact hrest
    · simp only [h, if_false]
      rw [SortedBy, List.pairwise_cons]
      exact ⟨fun b hb => hall b (mem_eraseKey k hb), ih hrest⟩

theorem lookupKey_eraseKey (lt : κ → κ → Bool)
    (hirr : ∀ a : κ, lt a a = false) (k k' : κ) :
    ∀ {m : List (κ × ν)}, SortedBy lt m →
      lookupKey k' (eraseKey k m) = if k' = k then none else lookupKey k' m := by
  intro m
  induction m with
  | nil => intro _; simp [eraseKey, lookupKey]
  | cons hd rest ih =>
    intro hs
    obtain ⟨k₀, v₀⟩ := hd
    rw [SortedBy, List.pairwise_cons] at hs
    obtain ⟨hall, hrest⟩ := hs
    simp only [eraseKey]
    by_cases h : k = k₀
    · subst h
      simp only [if_pos rfl]
      by_cases h' : k' = k
      · subst h'
        simp only [if_pos rfl]
        refine lookupKey_eq_none_of_ne k' ?_
        intro x hx he
        have := hall x hx
        rw [he] at this
        rw [hirr k'] at this
        exact Bool.noConfusion this
      · simp [lookupKey, h']
    · simp only [h, if_false]
      simp only [lookupKey]
      by_cases h' : k' = k₀
      · subst h'
        have : k' ≠ k := fun he => h he.symm
        simp [this]
      · simp [h', ih hrest]

theorem mem_keysOf_insertSorted (lt : κ → κ → Bool) (k : κ) (v : ν)
    {m : List (κ × ν)} {k' : κ}
    (h : k' ∈ keysOf (insertSorted lt k v m)) : k' = k ∨ k' ∈ keysOf m := by
  rw [keysOf, List.mem_map] at h
  obtain ⟨x, hx, hx1⟩ := h
  rcases mem_insertSorted lt k v hx with h' | h'
  · left; rw [← hx1, h']
  · right; rw [keysOf, List.mem_map]; exact ⟨x, h', hx1⟩

theorem mem_keysOf_eraseKey (k : κ) {m : List (κ × ν)} {k' : κ}
    (h : k' ∈ keysOf (eraseKey k m)) : k' ∈ keysOf m := by
  rw [keysOf, List.mem_map] at h
  obtain ⟨x, hx, hx1⟩ := h
  rw [keysOf, List.mem_map]
  exact ⟨x, mem_eraseKey k hx, hx1⟩

theorem mem_keysOf_of_lookupKey {k : κ} {v : ν} :
    ∀ {m : List (κ × ν)}, lookupKey k m = some v → k ∈ keysOf m := by
  intro m
  induction m with
  | nil => intro h; exact Option.noConfusion h
  | cons hd rest ih =>
    intro h
    obtain ⟨k₀, v₀⟩ := hd
    simp only [lookupKey] at h
    by_cases h' : k = k₀
    · simp [keysOf, h']
    · simp only [h', if_false] at h
      simp [keysOf]
      right
      have := ih h
      simpa [keysOf] using this

theorem head_lt_of_mem_keysOf (lt : κ → κ → Bool) {k₀ : κ} {v₀ : ν}
    {rest : List (κ × ν)} (hs : SortedBy lt ((k₀, v₀) :: rest)) {k : κ}
    (h : k ∈ keysOf rest) : lt k₀ k = true := by
  rw [SortedBy, List.pairwise_cons] at hs
  rw [keysOf, List.mem_map] at h
  obtain ⟨x, hx, hx1⟩ := h
  have := hs.1 x hx
  rw [hx1] at this
  exact this

theorem sorted_ext (lt : κ → κ → Bool)
    (hirr : ∀ a : κ, lt a a = false)
    (htr : ∀ a b c : κ, lt a b = true → lt b c = true → lt a c = true) :
    ∀ {m₁ m₂ : List (κ × ν)}, SortedBy lt m₁ → SortedBy lt m₂ →
      (∀ k, lookupKey k m₁ = lookupKey k m₂) → m₁ = m₂ := by
  intro m₁
  induction m₁ with
  | nil =>
    intro m₂ _ _ hl
    cases m₂ with
    | nil => rfl
    | cons hd rest =>
      have := hl hd.1
      simp [lookupKey] at this
  | cons hd₁ rest₁ ih =>
    intro m₂ hs₁ hs₂ hl
    obtain ⟨k₁, v₁⟩ := hd₁
    cases m₂ with
    | nil =>
      have := hl k₁
      simp [lookupKey] at this
    | cons hd₂ rest₂ =>
      obtain ⟨k₂, v₂⟩ := hd₂
      have hkeq : k₁ = k₂ := by
        by_contra hne
        have h₁ : lookupKey k₁ ((k₂, v₂) :: rest₂) = some v₁ := by
          rw [← hl k₁]; simp [lookupKey]
        have h₂ : lookupKey k₂ ((k₁, v₁) :: rest₁) = some v₂ := by
          rw [hl k₂]; simp [lookupKey]
        have hm₁ : k₁ ∈ keysOf ((k₂, v₂) :: rest₂) := mem_keysOf_of_lookupKey h₁
        have hm₂ : k₂ ∈ keysOf ((k₁, v₁) :: rest₁) := mem_keysOf_of_lookupKey h₂
        simp only [keysOf, List.map_cons, List.mem_cons] at hm₁ hm₂
        rcases hm₁ with h | h
        · exact hne h
        · rcases hm₂ with h' | h'
          · exact hne h'.symm
          · have hlt₁ : lt k₂ k₁ = true :=
              head_lt_of_mem_keysOf lt hs₂ (by simpa [keysOf] using h)
            have hlt₂ : lt k₁ k₂ = true :=
              head_lt_of_mem_keysOf lt hs₁ (by simpa [keysOf] using h')
            have := htr _ _ _ hlt₁ hlt₂
            rw [hirr k₂] at this
            exact Bool.noConfusion this
      subst hkeq
      have hveq : v₁ = v₂ := by
        have := hl k₁
        simp [lookupKey] at this
        exact this
      subst hveq
      rw [SortedBy, List.pairwise_cons] at hs₁ hs₂
      have htail : ∀ k, lookupKey k rest₁ = lookupKey k rest₂ := by
        intro k
        by_cases h : k = k₁
        · subst h
          have hn₁ : lookupKey k rest₁ = none := by
            refine lookupKey_eq_none_of_ne k ?_
            intro x hx he
            have := hs₁.1 x hx
            rw [he, hirr k] at this
            exact Bool.noConfusion this
          have hn₂ : lookupKey k rest₂ = none := by
            refine lookupKey_eq_none_of_ne k ?_
            intro x hx he
            have := hs₂.1 x hx
            rw [he, hirr k] at this
            exact Bool.noConfusion this
          rw [hn₁, hn₂]
        · have := hl k
          simpa [lookupKey, h] using this
      rw [ih hs₁.2 hs₂.2 htail]

end SortedMap

section SortedMapComm

variable {κ ν : Type} [DecidableEq κ] {lt : κ → κ → Bool}

theorem insertSorted_comm
    (hirr : ∀ a : κ, lt a a = false)
    (htr : ∀ a b c : κ, lt a b = true → lt b c = true → lt a c = true)
    (hconn : ∀ a b : κ, a ≠ b → lt a b = true ∨ lt b a = true)
    {k₁ k₂ : κ} (hne : k₁ ≠ k₂) (v₁ v₂ : ν)
    {m : List (κ × ν)} (hm : SortedBy lt m) :
    insertSorted lt k₂ v₂ (insertSorted lt k₁ v₁ m)
      = insertSorted lt k₁ v₁ (insertSorted lt k₂ v₂ m) := by
  refine sorted_ext lt hirr htr ?_ ?_ ?_
  · exact sortedBy_insertSorted lt htr hconn _ _
      (sortedBy_insertSorted lt htr hconn _ _ hm)
  · exact sortedBy_insertSorted lt htr hconn _ _
      (sortedBy_insertSorted lt htr hconn _ _ hm)
  · intro k
    rw [lookupKey_insertSorted, lookupKey_insertSorted,
      lookupKey_insertSorted, lookupKey_insertSorted]
    by_cases ha : k = k₂
    · by_cases hb : k = k₁
      · exact absurd (hb.symm.trans ha) hne
      · simp [ha, hb, Ne.symm hne]
    · by_cases hb : k = k₁ <;> simp [ha, hb, hne]

theorem eraseKey_insertSorted_comm
    (hirr : ∀ a : κ, lt a a = false)
    (htr : ∀ a b c : κ, lt a b = true → lt b c = true → lt a c = true)
    (hconn : ∀ a b : κ, a ≠ b → lt a b = true ∨ lt b a = true)
    {k₁ k₂ : κ} (hne : k₁ ≠ k₂) (v₁ : ν)
    {m : List (κ × ν)} (hm : SortedBy lt m) :
    eraseKey k₂ (insertSorted lt k₁ v₁ m)
      = insertSorted lt k₁ v₁ (eraseKey k₂ m) := by
  refine sorted_ext lt hirr htr ?_ ?_ ?_
  · exact sortedBy_eraseKey lt _ (sortedBy_insertSorted lt htr hconn _ _ hm)
  · exact sortedBy_insertSorted lt htr hconn _ _ (sortedBy_eraseKey lt _ hm)
  · intro k
    rw [lookupKey_eraseKey lt hirr _ _ (sortedBy_insertSorted lt htr hconn _ _ hm),
      lookupKey_insertSorted, lookupKey_insertSorted,
      lookupKey_eraseKey lt hirr _ _ hm]
    by_cases ha : k = k₂
    · by_cases hb : k = k₁
      · exact absurd (hb.symm.trans ha) hne
      · simp [ha, hb, Ne.symm hne]
    · by_cases hb : k = k₁ <;> simp [ha, hb, hne]

theorem eraseKey_comm
    (hirr : ∀ a : κ, lt a a = false)
    (htr : ∀ a b c : κ, lt a b = true → lt b c = true → lt a c = true)
    (k₁ k₂ : κ)
    {m : List (κ × ν)} (hm : SortedBy lt m) :
    eraseKey k₂ (eraseKey k₁ m) = eraseKey k₁ (eraseKey k₂ m) := by
  refine sorted_ext lt hirr htr ?_ ?_ ?_
  · exact sortedBy_eraseKey lt _ (sortedBy_eraseKey lt _ hm)
  · exact sortedBy_eraseKey lt _ (sortedBy_eraseKey lt _ hm)
  · intro k
    rw [lookupKey_eraseKey lt hirr _ _ (sortedBy_eraseKey lt _ hm),
      lookupKey_eraseKey lt hirr _ _ hm,
      lookupKey_eraseKey lt hirr _ _ (sortedBy_eraseKey lt _ hm),
      lookupKey_eraseKey lt hirr _ _ hm]
    by_cases ha : k = k₂ <;> by_cases hb : k = k₁ <;> simp [ha, hb]

theorem insertSorted_collapse
    (hirr : ∀ a : κ, lt a a = false)
    (htr : ∀ a b c : κ, lt a b = true → lt b c = true → lt a c = true)
    (hconn : ∀ a b : κ, a ≠ b → lt a b = true ∨ lt b a = true)
    (k : κ) (v₁ v₂ : ν)
    {m : List (κ × ν)} (hm : SortedBy lt m) :
    insertSorted lt k v₂ (insertSorted lt k v₁ m) = insertSorted lt k v₂ m := by
  refine sorted_ext lt hirr htr ?_ ?_ ?_
  · exact sortedBy_insertSorted lt htr hconn _ _
      (sortedBy_insertSorted lt htr hconn _ _ hm)
  · exact sortedBy_insertSorted lt htr hconn _ _ hm
  · intro k'
    rw [lookupKey_insertSorted, lookupKey_insertSorted, lookupKey_insertSorted]
    by_cases h : k' = k <;> simp [h]

theorem eraseKey_of_lookup_none (k : κ) :
    ∀ {m : List (κ × ν)}, lookupKey k m = none → eraseKey k m = m := by
  intro m
  induction m with
  | nil => intro _; rfl
  | cons hd rest ih =>
    intro h
    obtain ⟨k₀, v₀⟩ := hd
    simp only [lookupKey] at h
    by_cases h' : k = k₀
    · simp [h'] at h
    · simp only [h', if_false] at h
      simp [eraseKey, h', ih h]

end SortedMapComm

/-! ## JSON values, errors, and the environment

`serde_json` and `sha256` are external crates.  The text-to-value phase of
`serde_json::from_str` and the digest function are abstract fields of the
environment `Sys`; the derived (`Deserialize`/`Serialize` for `Checksum`)
phases are modelled concretely below. -/

/-- A JSON value, for the structural phase of manifest (de)serialization. -/
inductive Json where
  | null
  | bool (b : Bool)
  | num (n : Int)
  | str (s : String)
  | arr (elems : List Json)
  | obj (fields : List (String × Json))

/-- The error taxonomy of the tool, per failure site.  The source reports
errors as `anyhow` strings whose context always names the offending path;
each constructor here carries that path. -/
inductive Err where
  | ioError (p : Pth)
  | parseError (p : Pth)
  | invalidRequestError (p : Pth)
  deriving DecidableEq

deriving instance DecidableEq for Except

/-- The in-memory manifest: struct `Checksum` of src/main.rs.  `files` is
the `BTreeMap<PathBuf, String>` (sorted association list), `package` the
opaque optional field, `path` the `#[serde(skip)]` origin location. -/
structure Checksum where
  files : List (Pth × String)
  package : Option String
  path : Pth
  deriving DecidableEq

/-- The environment: filesystem plus the two external crate functions.
`readFile` returns the content of a readable file (`none`: unreadable or
absent).  `pathExists` is `Path::exists`.  `readDir` lists a directory:
`none` if the directory itself cannot be read, and each entry is the full
child path, or `none` for an entry whose `DirEntry` read fails.
`writeFile` reports whether a write succeeds.  `jsonOfText` is the
text-level phase of `serde_json::from_str`; `sha256hex` is
`sha256::try_digest` applied to the file content. -/
structure Sys where
  readFile : Pth → Option String
  pathExists : Pth → Bool
  readDir : Pth → Option (List (Option Pth))
  writeFile : Pth → String → Bool
  jsonOfText : String → Option Json
  sha256hex : String → String

/-! ## Manifest serialization (`serde_json::to_string` on `Checksum`) -/

/-- Lowercase hexadecimal digit. -/
def hexDigitChar (n : Nat) : Char :=
  if n < 10 then Char.ofNat (48 + n) else Char.ofNat (87 + n)

/-- JSON string escaping as `serde_json` performs it. -/
def escChar (c : Char) : String :=
  if c = '"' then "\\\""
  else if c = '\\' then "\\\\"
  else if c = '\n' then "\\n"
  else if c = '\r' then "\\r"
  else if c = '\t' then "\\t"
  else if c.toNat = 8 then "\\b"
  else if c.toNat = 12 then "\\f"
  else if c.toNat < 32 then
    "\\u00" ++ String.singleton (hexDigitChar (c.toNat / 16))
      ++ String.singleton (hexDigitChar (c.toNat % 16))
  else String.singleton c

/-- A JSON string literal. -/
def jsonStr (s : String) : String :=
  "\"" ++ String.join (s.data.map escChar) ++ "\""

/-- The `files` map as compact JSON, entries in list order (for a sorted
list this is the `BTreeMap` iteration order: ascending keys). -/
def serializeFiles (files : List (Pth × String)) : String :=
  "\x7b" ++ String.intercalate ","
      (files.map (fun kv => jsonStr (displayPth kv.1) ++ ":" ++ jsonStr kv.2))
    ++ "\x7d"

/-- `serde_json::to_string(&checksum)`: the derived `Serialize` emits the
named fields in declaration order, `files` then `package`; `path` is
`#[serde(skip)]`. -/
def serializeChecksum (c : Checksum) : String :=
  "\x7b\"files\":" ++ serializeFiles c.files ++ ",\"package\":" ++
    (match c.package with
     | some s => jsonStr s
     | none => "null") ++ "\x7d"

/-! ## Manifest parsing (derived `Deserialize` for `Checksum`) -/

/-- Split a character list at every slash (structural `splitOn "/"`). -/
def splitSegs : List Char → List Char → List String
  | [], cur => [String.mk cur.reverse]
  | c :: rest, cur =>
    if c = '/' then String.mk cur.reverse :: splitSegs rest []
    else splitSegs rest (c :: cur)

/-- `Deserialize for PathBuf` keeps the JSON string; path comparisons then
run on its components.  We model the key directly as its component list. -/
def parsePth (s : String) : Pth := splitSegs s.data []

/-- First binding of a field name in a JSON object. -/
def lookupField (k : String) : List (String × Json) → Option Json
  | [] => none
  | (k', v) :: rest => if k = k' then some v else lookupField k rest

/-- Deserializing the `files` object into a `BTreeMap<PathBuf, String>`:
every value must be a string; entries are inserted in encounter order
(later duplicates overwrite). -/
def parseFilesEntries :
    List (String × Json) → List (Pth × String) → Option (List (Pth × String))
  | [], acc => some acc
  | (k, v) :: rest, acc =>
    match v with
    | .str s => parseFilesEntries rest (insertSorted pthLt (parsePth k) s acc)
    | _ => none

/-- The derived `Deserialize` for `Checksum` on a JSON value: `files` is
required and must be an object of strings; `package` is an optional
string-or-null; unknown fields are ignored (no `deny_unknown_fields`);
`path` is `#[serde(skip)]` and then set to the origin by `Checksum::new`. -/
def parseChecksum (origin : Pth) (j : Json) : Except Err Checksum :=
  match j with
  | .obj kvs =>
    match lookupField "files" kvs with
    | some (.obj fkvs) =>
      match parseFilesEntries fkvs [] with
      | some files =>
        match lookupField "package" kvs with
        | some (.str s) => .ok ⟨files, some s, origin⟩
        | some .null => .ok ⟨files, none, origin⟩
        | none => .ok ⟨files, none, origin⟩
        | some _ => .error (.parseError origin)
      | none => .error (.parseError origin)
    | _ => .error (.parseError origin)
  | _ => .error (.parseError origin)

/-- `Checksum::new`: read the manifest file, parse it, record the origin. -/
def loadChecksum (sys : Sys) (cksumFile : Pth) : Except Err Checksum :=
  match sys.readFile cksumFile with
  | none => .error (.ioError cksumFile)
  | some text =>
    match sys.jsonOfText text with
    | none => .error (.parseError cksumFile)
    | some j => parseChecksum cksumFile j

/-- The fixed manifest file name. -/
def cksumName : String := ".cargo-checksum.json"

/-! ## Mode A: `process_files_in_vendor_dir` -/

/-- The outcome of a run: the manifest writes that reached the disk, in
order, and the first error if the run failed. -/
structure RunOut where
  writes : List (Pth × String)
  err : Option Err
  deriving DecidableEq

/-- The component split at the top of the `par_iter` closure: a request
must have at least two components; the first is the package, the rest the
path inside the package. -/
def splitFileParts (f : Pth) : Except Err (String × Pth) :=
  match f with
  | p₁ :: p₂ :: rest => .ok (p₁, p₂ :: rest)
  | _ => .error (.invalidRequestError f)

/-- One parallel task of Mode A: split the request, then either mark the
entry for deletion (`ignore_missing` and the file is absent) or hash it. -/
def processOneFile (sys : Sys) (vendor : Pth) (ignoreMissing : Bool)
    (f : Pth) : Except Err (String × Pth × Option String) :=
  match splitFileParts f with
  | .error e => .error e
  | .ok (pkg, fileInPkg) =>
    let fullFile := vendor ++ f
    if ignoreMissing && !sys.pathExists fullFile then
      .ok (pkg, fileInPkg, none)
    else
      match sys.readFile fullFile with
      | none => .error (.ioError fullFile)
      | some content => .ok (pkg, fileInPkg, some (sys.sha256hex content))

/-- `files.insert(...)` / `files.remove(...)` on a digest result. -/
def updateFilesEntry (files : List (Pth × String)) (fileInPkg : Pth) :
    Option String → List (Pth × String)
  | some digest => insertSorted pthLt fileInPkg digest files
  | none => eraseKey fileInPkg files

/-- One iteration of the Mode A merge loop: load the package manifest on
first touch, then insert or remove the entry. -/
def mergeOne (sys : Sys) (vendor : Pth) (acc : List (String × Checksum))
    (pkg : String) (fileInPkg : Pth) (digest : Option String) :
    Except Err (List (String × Checksum)) :=
  match lookupKey pkg acc with
  | some c =>
    .ok (insertSorted segLt pkg
      { c with files := updateFilesEntry c.files fileInPkg digest } acc)
  | none =>
    match loadChecksum sys (vendor ++ [pkg, cksumName]) with
    | .error e => .error e
    | .ok c =>
      .ok (insertSorted segLt pkg
        { c with files := updateFilesEntry c.files fileInPkg digest } acc)

/-- The Mode A merge loop over the collected task results: the first
error (a failed task, or a failed manifest load) aborts. -/
def mergeResults (sys : Sys) (vendor : Pth) :
    List (Except Err (String × Pth × Option String)) →
      List (String × Checksum) → Except Err (List (String × Checksum))
  | [], acc => .ok acc
  | .error e :: _, _ => .error e
  | .ok (pkg, fileInPkg, digest) :: rest, acc =>
    match mergeOne sys vendor acc pkg fileInPkg digest with
    | .error e => .error e
    | .ok acc' => mergeResults sys vendor rest acc'

/-- `write_checksums`: persist every touched manifest, in map order; the
first failing write aborts (earlier writes stay on disk). -/
def writeChecksums (sys : Sys) : List (String × Checksum) → RunOut
  | [] => ⟨[], none⟩
  | (_, c) :: rest =>
    let text := serializeChecksum c
    if sys.writeFile c.path text then
      let out := writeChecksums sys rest
      ⟨(c.path, text) :: out.writes, out.err⟩
    else ⟨[], some (.ioError c.path)⟩

/-- `process_files_in_vendor_dir`: hash all requests (results collected in
request order), merge them per package, then persist. -/
def processFilesInVendorDir (sys : Sys) (vendor : Pth)
    (filesInVendorDir : List Pth) (ignoreMissing : Bool) : RunOut :=
  let results := filesInVendorDir.map (processOneFile sys vendor ignoreMissing)
  match mergeResults sys vendor results [] with
  | .error e => ⟨[], some e⟩
  | .ok checksums => writeChecksums sys checksums

/-! ## Mode B: `process_packages` -/

/-- One parallel task of Mode B: recompute the digest of one path already
listed in the manifest (same `ignore_missing` rule as Mode A). -/
def rehashOneKey (sys : Sys) (pkgPath : Pth) (ignoreMissing : Bool)
    (relativeFile : Pth) : Except Err (Pth × Option String) :=
  let file := pkgPath ++ relativeFile
  if ignoreMissing && !sys.pathExists file then .ok (relativeFile, none)
  else
    match sys.readFile file with
    | none => .error (.ioError file)
    | some content => .ok (relativeFile, some (sys.sha256hex content))

/-- The Mode B merge loop for one package: fold the collected digest
results into the `files` map, aborting at the first error. -/
def foldDigests :
    List (Pth × String) → List (Except Err (Pth × Option String)) →
      Except Err (List (Pth × String))
  | files, [] => .ok files
  | _, .error e :: _ => .error e
  | files, .ok (file, digest) :: rest =>
    foldDigests (updateFilesEntry files file digest) rest

/-- The body of the Mode B `try_for_each` closure, up to the final write:
load the manifest, rehash exactly the keys it already lists, merge. -/
def processPackage (sys : Sys) (vendor : Pth) (ignoreMissing : Bool)
    (pkg : String) : Except Err Checksum :=
  let path := vendor ++ [pkg]
  let cksumFile := path ++ [cksumName]
  match loadChecksum sys cksumFile with
  | .error e => .error e
  | .ok c =>
    let results := (keysOf c.files).map (rehashOneKey sys path ignoreMissing)
    match foldDigests c.files results with
    | .error e => .error e
    | .ok files => .ok { c with files := files }

/-- `process_packages`: each package is processed and its manifest written
before the next one; an error stops the batch but keeps earlier writes. -/
def processPackages (sys : Sys) (vendor : Pth) (ignoreMissing : Bool) :
    List String → RunOut
  | [] => ⟨[], none⟩
  | pkg :: rest =>
    match processPackage sys vendor ignoreMissing pkg with
    | .error e => ⟨[], some e⟩
    | .ok c =>
      let text := serializeChecksum c
      if sys.writeFile c.path text then
        let out := processPackages sys vendor ignoreMissing rest
        ⟨(c.path, text) :: out.writes, out.err⟩
      else ⟨[], some (.ioError c.path)⟩

/-! ## `get_packages` and `main` -/

/-- `get_packages`: list the vendor root; keep, for each readable entry,
the final component of its path; drop entries that fail to read or have
no final component. -/
def getPackages (sys : Sys) (vendor : Pth) : Except Err (List String) :=
  match sys.readDir vendor with
  | none => .error (.ioError vendor)
  | some entries => .ok (entries.filterMap (fun e => e.bind List.getLast?))

/-- The parsed command line (struct `Cli` with its flattened `Files`
group). -/
structure CliArgs where
  filesInVendorDir : List Pth
  packages : List String
  all : Bool
  completion : Option String
  vendor : Pth
  ignoreMissing : Bool

/-- The `clap` argument-group invariant (`multiple = false` on the
`Files` group): when `--completion` is given, none of the three update
selectors can be. -/
def completionExclusive (a : CliArgs) : Prop :=
  a.completion.isSome = true →
    a.filesInVendorDir = [] ∧ a.packages = [] ∧ a.all = false

/-- `main` after argument parsing: emit the completion script if asked
(the source then falls through), and dispatch on the three selectors.
The first component is what `print_completions` emits. -/
def mainRun (sys : Sys) (args : CliArgs) : Option String × RunOut :=
  let out :=
    if !args.filesInVendorDir.isEmpty then
      processFilesInVendorDir sys args.vendor args.filesInVendorDir
        args.ignoreMissing
    else if args.all then
      match getPackages sys args.vendor with
      | .error e => ⟨[], some e⟩
      | .ok pkgs => processPackages sys args.vendor args.ignoreMissing pkgs
    else
      processPackages sys args.vendor args.ignoreMissing args.packages
  (args.completion, out)

/-! ## Invariants and supporting lemmas -/

/-- Abbreviations for the three order facts of `pthLt` in the shape the
generic sorted-map lemmas expect. -/
theorem pthLt_irr : ∀ a : Pth, pthLt a a = false := pthLt_irrefl

theorem pthLt_tr : ∀ a b c : Pth, pthLt a b = true → pthLt b c = true →
    pthLt a c = true := fun _ _ _ h h' => pthLt_trans h h'

theorem pthLt_cn : ∀ a b : Pth, a ≠ b → pthLt a b = true ∨ pthLt b a = true :=
  fun _ _ h => pthLt_conn h

theorem segLt_irr : ∀ a : String, segLt a a = false := segLt_irrefl

theorem segLt_tr : ∀ a b c : String, segLt a b = true → segLt b c = true →
    segLt a c = true := fun _ _ _ h h' => segLt_trans h h'

theorem segLt_cn : ∀ a b : String, a ≠ b → segLt a b = true ∨ segLt b a = true :=
  fun _ _ h => segLt_conn h

theorem sortedBy_updateFilesEntry {F : List (Pth × String)}
    (hF : SortedBy pthLt F) (f : Pth) (d : Option String) :
    SortedBy pthLt (updateFilesEntry F f d) := by
  cases d with
  | some digest => exact sortedBy_insertSorted pthLt pthLt_tr pthLt_cn _ _ hF
  | none => exact sortedBy_eraseKey pthLt _ hF

theorem sortedBy_parseFilesEntries :
    ∀ (kvs : List (String × Json)) (acc files : List (Pth × String)),
      SortedBy pthLt acc → parseFilesEntries kvs acc = some files →
        SortedBy pthLt files := by
  intro kvs
  induction kvs with
  | nil =>
    intro acc files hacc h
    simp [parseFilesEntries] at h
    rw [← h]
    exact hacc
  | cons kv rest ih =>
    intro acc files hacc h
    obtain ⟨k, v⟩ := kv
    match v with
    | .str s =>
      rw [parseFilesEntries] at h
      exact ih _ files (sortedBy_insertSorted pthLt pthLt_tr pthLt_cn _ _ hacc) h
    | .null | .bool _ | .num _ | .arr _ | .obj _ => simp [parseFilesEntries] at h

theorem sortedBy_parseChecksum {origin : Pth} {j : Json} {c : Checksum}
    (h : parseChecksum origin j = .ok c) : SortedBy pthLt c.files := by
  match j with
  | .null | .bool _ | .num _ | .str _ | .arr _ => simp [parseChecksum] at h
  | .obj kvs =>
    rw [parseChecksum] at h
    match hf : lookupField "files" kvs with
    | none => simp only [hf] at h; exact Except.noConfusion h
    | some .null | some (.bool _) | some (.num _) | some (.str _)
    | some (.arr _) => simp only [hf] at h; exact Except.noConfusion h
    | some (.obj fkvs) =>
      simp only [hf] at h
      match hp : parseFilesEntries fkvs [] with
      | none => simp only [hp] at h; exact Except.noConfusion h
      | some files =>
        simp only [hp] at h
        have hs : SortedBy pthLt files :=
          sortedBy_parseFilesEntries fkvs [] files (by simp [SortedBy]) hp
        match hq : lookupField "package" kvs with
        | some (.str s) =>
          simp only [hq] at h
          cases h
          exact hs
        | some .null =>
          simp only [hq] at h
          cases h
          exact hs
        | none =>
          simp only [hq] at h
          cases h
          exact hs
        | some (.bool _) | some (.num _) | some (.arr _) | some (.obj _) =>
          simp only [hq] at h; exact Except.noConfusion h

theorem sortedBy_loadChecksum {sys : Sys} {p : Pth} {c : Checksum}
    (h : loadChecksum sys p = .ok c) : SortedBy pthLt c.files := by
  rw [loadChecksum] at h
  match ht : sys.readFile p with
  | none => simp only [ht] at h; exact Except.noConfusion h
  | some text =>
    simp only [ht] at h
    match hj : sys.jsonOfText text with
    | none => simp only [hj] at h; exact Except.noConfusion h
    | some j =>
      simp only [hj] at h
      exact sortedBy_parseChecksum h

/-- A successful lookup is a member of the association list. -/
theorem mem_of_lookupKey {κ ν : Type} [DecidableEq κ] {k : κ} {v : ν} :
    ∀ {m : List (κ × ν)}, lookupKey k m = some v → (k, v) ∈ m := by
  intro m
  induction m with
  | nil => intro h; exact Option.noConfusion h
  | cons hd rest ih =>
    intro h
    obtain ⟨k₀, v₀⟩ := hd
    simp only [lookupKey] at h
    by_cases hk : k = k₀
    · simp only [hk, if_pos rfl] at h
      cases h
      simp [hk]
    · simp only [hk, if_false] at h
      exact List.mem_cons_of_mem _ (ih h)

/-- The invariant of the Mode A merge accumulator: the per-package map is
sorted by package name and every held manifest has a sorted `files` map. -/
def AccInv (acc : List (String × Checksum)) : Prop :=
  SortedBy segLt acc ∧ ∀ x ∈ acc, SortedBy pthLt x.2.files

theorem accInv_nil : AccInv [] := ⟨List.Pairwise.nil, by simp⟩

theorem mergeOne_inv {sys : Sys} {vendor : Pth} {acc acc'}
    {pkg : String} {fileInPkg : Pth} {digest : Option String}
    (hinv : AccInv acc)
    (h : mergeOne sys vendor acc pkg fileInPkg digest = .ok acc') :
    AccInv acc' := by
  obtain ⟨hsort, hfiles⟩ := hinv
  rw [mergeOne] at h
  have step :
      ∀ c : Checksum, SortedBy pthLt c.files →
        AccInv (insertSorted segLt pkg
          { c with files := updateFilesEntry c.files fileInPkg digest } acc) := by
    intro c hc
    refine ⟨sortedBy_insertSorted segLt segLt_tr segLt_cn _ _ hsort, ?_⟩
    intro x hx
    rcases mem_insertSorted segLt _ _ hx with hx' | hx'
    · rw [hx']
      exact sortedBy_updateFilesEntry hc fileInPkg digest
    · exact hfiles x hx'
  match hl : lookupKey pkg acc with
  | some c =>
    simp only [hl] at h
    cases h
    exact step c (hfiles (pkg, c) (mem_of_lookupKey hl))
  | none =>
    simp only [hl] at h
    match hld : loadChecksum sys (vendor ++ [pkg, cksumName]) with
    | .error e => simp only [hld] at h; exact Except.noConfusion h
    | .ok c =>
      simp only [hld] at h
      cases h
      exact step c (sortedBy_loadChecksum hld)

theorem mergeResults_inv {sys : Sys} {vendor : Pth} :
    ∀ {rs acc out}, AccInv acc → mergeResults sys vendor rs acc = .ok out →
      AccInv out := by
  intro rs
  induction rs with
  | nil =>
    intro acc out hinv h
    cases h
    exact hinv
  | cons r rest ih =>
    intro acc out hinv h
    match r with
    | .error e => exact Except.noConfusion h
    | .ok (pkg, fileInPkg, digest) =>
      rw [mergeResults] at h
      match hm : mergeOne sys vendor acc pkg fileInPkg digest with
      | .error e => simp only [hm] at h; exact Except.noConfusion h
      | .ok acc' =>
        simp only [hm] at h
        exact ih (mergeOne_inv hinv hm) h

theorem mergeResults_error {sys : Sys} {vendor : Pth} {e : Err} :
    ∀ {rs : List (Except Err (String × Pth × Option String))},
      Except.error e ∈ rs → ∀ acc, ∃ e',
        mergeResults sys vendor rs acc = .error e' := by
  intro rs
  induction rs with
  | nil => intro h; cases h
  | cons r rest ih =>
    intro h acc
    match r with
    | .error e₀ => exact ⟨e₀, rfl⟩
    | .ok (pkg, fileInPkg, digest) =>
      have hmem : Except.error e ∈ rest := by
        rcases List.mem_cons.mp h with h' | h'
        · exact Except.noConfusion h'
        · exact h'
      rw [mergeResults]
      match hm : mergeOne sys vendor acc pkg fileInPkg digest with
      | .error e₁ => exact ⟨e₁, by simp only [hm]⟩
      | .ok acc' =>
        obtain ⟨e', he'⟩ := ih hmem acc'
        exact ⟨e', by simp only [hm]; exact he'⟩

/-- Every successful Mode A task result keys the request that produced
it: the package is the first component, the in-package path the rest. -/
theorem processOneFile_key {sys : Sys} {vendor : Pth} {im : Bool} {f : Pth}
    {pkg : String} {fileInPkg : Pth} {digest : Option String}
    (h : processOneFile sys vendor im f = .ok (pkg, fileInPkg, digest)) :
    f = pkg :: fileInPkg := by
  rw [processOneFile] at h
  match f with
  | [] => exact Except.noConfusion h
  | [a] => exact Except.noConfusion h
  | p₁ :: p₂ :: rest =>
    simp only [splitFileParts] at h
    by_cases hc : (im && !sys.pathExists (vendor ++ p₁ :: p₂ :: rest)) = true
    · rw [if_pos hc] at h
      cases h
      rfl
    · rw [if_neg hc] at h
      match hr : sys.readFile (vendor ++ p₁ :: p₂ :: rest) with
      | none => simp only [hr] at h; exact Except.noConfusion h
      | some content =>
        simp only [hr] at h
        cases h
        rfl

/-- A successful Mode B task keeps the key it rehashed. -/
theorem rehashOneKey_fst {sys : Sys} {pkgPath : Pth} {im : Bool}
    {rel : Pth} {pd : Pth × Option String}
    (h : rehashOneKey sys pkgPath im rel = .ok pd) : pd.1 = rel := by
  rw [rehashOneKey] at h
  by_cases hc : (im && !sys.pathExists (pkgPath ++ rel)) = true
  · rw [if_pos hc] at h
    cases h
    rfl
  · rw [if_neg hc] at h
    match hr : sys.readFile (pkgPath ++ rel) with
    | none => simp only [hr] at h; exact Except.noConfusion h
    | some content =>
      simp only [hr] at h
      cases h
      rfl

/-- Keys surviving the Mode B merge loop come from the starting map or
from some successful task result. -/
theorem keysOf_foldDigests :
    ∀ (rs : List (Except Err (Pth × Option String)))
      (m files : List (Pth × String)),
      foldDigests m rs = .ok files → ∀ k ∈ keysOf files,
        k ∈ keysOf m ∨ ∃ pd, Except.ok pd ∈ rs ∧ pd.1 = k := by
  intro rs
  induction rs with
  | nil =>
    intro m files h k hk
    cases h
    exact Or.inl hk
  | cons r rest ih =>
    intro m files h k hk
    match r with
    | .error e => exact Except.noConfusion h
    | .ok (file, digest) =>
      rw [foldDigests] at h
      rcases ih _ files h k hk with hm | ⟨pd, hpd, hfst⟩
      · match digest with
        | some d =>
          rcases mem_keysOf_insertSorted pthLt _ _ hm with h' | h'
          · exact Or.inr ⟨(file, some d), by simp, by simp [h']⟩
          · exact Or.inl h'
        | none =>
          exact Or.inl (mem_keysOf_eraseKey _ hm)
      · exact Or.inr ⟨pd, List.mem_cons_of_mem _ hpd, hfst⟩

/-- The Mode B merge loop preserves sortedness of the `files` map. -/
theorem sortedBy_foldDigests :
    ∀ (rs : List (Except Err (Pth × Option String)))
      (m files : List (Pth × String)), SortedBy pthLt m →
      foldDigests m rs = .ok files → SortedBy pthLt files := by
  intro rs
  induction rs with
  | nil =>
    intro m files hm h
    cases h
    exact hm
  | cons r rest ih =>
    intro m files hm h
    match r with
    | .error e => exact Except.noConfusion h
    | .ok (file, digest) =>
      rw [foldDigests] at h
      exact ih _ files (sortedBy_updateFilesEntry hm file digest) h

/-- Object field lookup skips a binding whose name differs. -/
theorem lookupField_skip (f k : String) (v : Json)
    (hne : f ≠ k) :
    ∀ pre post : List (String × Json),
      lookupField f (pre ++ (k, v) :: post) = lookupField f (pre ++ post) := by
  intro pre
  induction pre with
  | nil =>
    intro post
    simp only [List.nil_append, lookupField]
    rw [if_neg hne]
  | cons hd rest ih =>
    intro post
    obtain ⟨k₀, v₀⟩ := hd
    simp only [List.cons_append, lookupField]
    by_cases h : f = k₀
    · rw [if_pos h, if_pos h]
    · rw [if_neg h, if_neg h]
      exact ih post

/-- Does one character list start with another? -/
def startsWithL : List Char → List Char → Bool
  | [], _ => true
  | _ :: _, [] => false
  | a :: as, b :: bs => a == b && startsWithL as bs

/-- Does `needle` occur as a contiguous run inside the second list? -/
def hasSub (needle : List Char) : List Char → Bool
  | [] => needle.isEmpty
  | a :: rest => startsWithL needle (a :: rest) || hasSub needle rest

/-! ## Claim theorems -/

/-- C7: a requested vendor-relative path with fewer than two components is
rejected as an invalid request; any path with at least two components
splits into its first component (the package name) and the remaining
components (the path within the package). -/
theorem split_two_parts (f : Pth) :
    (f.length < 2 → splitFileParts f = .error (.invalidRequestError f))
    ∧ ∀ p₁ p₂ rest, f = p₁ :: p₂ :: rest →
        splitFileParts f = .ok (p₁, p₂ :: rest) := by
  constructor
  · intro h
    match f with
    | [] => rfl
    | [a] => rfl
    | a :: b :: r => simp at h; omega
  · rintro p₁ p₂ rest rfl
    rfl

theorem split_two_parts_witness :
    splitFileParts ["serde"] = .error (.invalidRequestError ["serde"])
    ∧ splitFileParts ["serde", "src", "lib.rs"] = .ok ("serde", ["src", "lib.rs"]) :=
  ⟨(split_two_parts ["serde"]).1 (by decide),
   (split_two_parts ["serde", "src", "lib.rs"]).2 "serde" "src" ["lib.rs"] rfl⟩

/-- C5: the "all packages" request resolves to exactly the direct child
entry names of the vendor root, and fails with an `IoError` when the
vendor root cannot be listed. -/
theorem get_packages_children (sys : Sys) (vendor : Pth) (names : List String)
    (h : sys.readDir vendor = some (names.map (fun n => some (vendor ++ [n])))) :
    getPackages sys vendor = .ok names
    ∧ ∀ sys₂ : Sys, sys₂.readDir vendor = none →
        getPackages sys₂ vendor = .error (.ioError vendor) := by
  constructor
  · have key : ∀ ns : List String,
        List.filterMap (fun e => Option.bind e List.getLast?)
          (ns.map (fun n => some (vendor ++ [n]))) = ns := by
      intro ns
      induction ns with
      | nil => rfl
      | cons n rest ih => simp [List.filterMap_cons, List.getLast?_concat, ih]
    simp only [getPackages, h, key]
  · intro sys₂ h₂
    simp only [getPackages, h₂]

/-- C9: a vendor-root child whose directory entry fails to read, or whose
path has no final component, is silently dropped from the package list;
only the failure to list the vendor root itself is an error. -/
theorem bad_dir_entries_skipped (sys sys₂ : Sys) (vendor : Pth)
    (es₁ es₂ : List (Option Pth)) (bad : Option Pth)
    (hbad : bad = none ∨ ∃ p, bad = some p ∧ p.getLast? = none)
    (h₁ : sys.readDir vendor = some (es₁ ++ bad :: es₂))
    (h₂ : sys₂.readDir vendor = some (es₁ ++ es₂)) :
    getPackages sys vendor = getPackages sys₂ vendor
    ∧ ∀ sys₃ : Sys, sys₃.readDir vendor = none →
        getPackages sys₃ vendor = .error (.ioError vendor) := by
  constructor
  · simp only [getPackages, h₁, h₂]
    congr 1
    rw [List.filterMap_append, List.filterMap_append]
    congr 1
    rcases hbad with h | ⟨p, hp, hlast⟩
    · simp [h]
    · simp [hp, hlast]
  · intro sys₃ h₃
    simp only [getPackages, h₃]

/-- C8: with the completion generator selected, the `clap` group
invariant forces the three update selectors to be empty, so the run
performs no writes, reports no error (exit code 0), is independent of the
filesystem, and emits the requested completion script. -/
theorem completion_bypass (sys : Sys) (args : CliArgs)
    (hexc : completionExclusive args) (hc : args.completion.isSome = true) :
    mainRun sys args = (args.completion, ⟨[], none⟩) := by
  obtain ⟨h₁, h₂, h₃⟩ := hexc hc
  rw [mainRun]
  simp [h₁, h₂, h₃, processPackages]

/-- A small concrete environment used by the witnesses: a vendor tree
with packages `alpha` (manifest listing `lib.rs` and the now-deleted
`gone.txt`) and `beta` (empty manifest).  `broken.bin` exists but cannot
be read; package `gamma` has no manifest. -/
def sysW : Sys where
  readFile := fun p =>
    if p = ["vendor", "alpha", ".cargo-checksum.json"] then some "MA"
    else if p = ["vendor", "beta", ".cargo-checksum.json"] then some "MB"
    else if p = ["vendor", "alpha", "lib.rs"] then some "LIB"
    else none
  pathExists := fun p =>
    decide (p = ["vendor", "alpha", "lib.rs"] ∨ p = ["vendor", "alpha", "broken.bin"])
  readDir := fun p =>
    if p = ["vendor"] then
      some [some ["vendor", "alpha"], some ["vendor", "beta"]]
    else none
  writeFile := fun _ _ => true
  jsonOfText := fun t =>
    if t = "MA" then
      some (Json.obj
        [("files", Json.obj
            [("lib.rs", Json.str "oldhash"), ("gone.txt", Json.str "gonehash")]),
         ("package", Json.str "alphapkg")])
    else if t = "MB" then
      some (Json.obj [("files", Json.obj []), ("package", Json.null)])
    else none
  sha256hex := fun s => "sha-" ++ s

/-- A variant of `sysW` whose vendor listing has a failed entry and an
entry with no final component. -/
def sysBadDir : Sys where
  readFile := fun _ => none
  pathExists := fun _ => false
  readDir := fun p =>
    if p = ["vendor"] then
      some [some ["vendor", "alpha"], none, some [], some ["vendor", "beta"]]
    else none
  writeFile := fun _ _ => true
  jsonOfText := fun _ => none
  sha256hex := fun s => s

/-- A variant of `sysBadDir` without the failed entry. -/
def sysBadDir₂ : Sys where
  readFile := fun _ => none
  pathExists := fun _ => false
  readDir := fun p =>
    if p = ["vendor"] then
      some [some ["vendor", "alpha"], some [], some ["vendor", "beta"]]
    else none
  writeFile := fun _ _ => true
  jsonOfText := fun _ => none
  sha256hex := fun s => s

theorem get_packages_children_witness :
    getPackages sysW ["vendor"] = .ok ["alpha", "beta"]
    ∧ ∀ sys₂ : Sys, sys₂.readDir ["vendor"] = none →
        getPackages sys₂ ["vendor"] = .error (.ioError ["vendor"]) :=
  get_packages_children sysW ["vendor"] ["alpha", "beta"] (by decide)

theorem bad_dir_entries_skipped_witness :
    getPackages sysBadDir ["vendor"] = getPackages sysBadDir₂ ["vendor"]
    ∧ ∀ sys₃ : Sys, sys₃.readDir ["vendor"] = none →
        getPackages sys₃ ["vendor"] = .error (.ioError ["vendor"]) :=
  bad_dir_entries_skipped sysBadDir sysBadDir₂ ["vendor"]
    [some ["vendor", "alpha"]] [some [], some ["vendor", "beta"]] none
    (Or.inl rfl) (by decide) (by decide)

theorem completion_bypass_witness :
    mainRun sysW ⟨[], [], false, some "zsh", ["vendor"], false⟩
      = (some "zsh", ⟨[], none⟩) :=
  completion_bypass sysW ⟨[], [], false, some "zsh", ["vendor"], false⟩
    (fun _ => ⟨rfl, rfl, rfl⟩) rfl

/-- C1: in Mode A, if reading or hashing any requested file fails (the
request has a valid two-component shape, is not diverted to the
ignore-missing deletion path, and its content cannot be read), the whole
run fails and nothing at all is written: every manifest on disk is left
unchanged. -/
theorem modeA_fail_fast (sys : Sys) (vendor : Pth) (im : Bool)
    (files : List Pth) (f : Pth) (p₁ p₂ : String) (rest : List String)
    (hf : f ∈ files) (hsh : f = p₁ :: p₂ :: rest)
    (hskip : (im && !sys.pathExists (vendor ++ f)) = false)
    (hread : sys.readFile (vendor ++ f) = none) :
    (processFilesInVendorDir sys vendor files im).writes = []
    ∧ (processFilesInVendorDir sys vendor files im).err ≠ none := by
  have herr : processOneFile sys vendor im f = .error (.ioError (vendor ++ f)) := by
    subst hsh
    rw [processOneFile]
    simp only [splitFileParts]
    rw [if_neg (by rw [hskip]; exact Bool.false_ne_true)]
    simp only [hread]
  have hmem : Except.error (Err.ioError (vendor ++ f))
      ∈ files.map (processOneFile sys vendor im) :=
    List.mem_map.mpr ⟨f, hf, herr⟩
  obtain ⟨e', he'⟩ := @mergeResults_error sys vendor (.ioError (vendor ++ f))
    (files.map (processOneFile sys vendor im)) hmem []
  simp only [processFilesInVendorDir, he']
  exact ⟨trivial, by simp⟩

theorem modeA_fail_fast_witness :
    (processFilesInVendorDir sysW ["vendor"]
        [["alpha", "lib.rs"], ["alpha", "broken.bin"]] false).writes = []
    ∧ (processFilesInVendorDir sysW ["vendor"]
        [["alpha", "lib.rs"], ["alpha", "broken.bin"]] false).err ≠ none :=
  modeA_fail_fast sysW ["vendor"] false
    [["alpha", "lib.rs"], ["alpha", "broken.bin"]] ["alpha", "broken.bin"]
    "alpha" "broken.bin" [] (by decide) rfl (by decide) (by decide)

/-- C3: with ignore-missing set, an update request for an absent file
removes that key from the loaded manifest (a no-op on the map when the
key is absent); without the option the same request fails with an
`IoError` carrying the full path of the file. -/
theorem ignore_missing_deletion (sys : Sys) (vendor : Pth) (pkg q : String)
    (r : List String) (c : Checksum)
    (hmiss : sys.pathExists (vendor ++ pkg :: q :: r) = false)
    (hload : loadChecksum sys (vendor ++ [pkg, cksumName]) = .ok c) :
    mergeResults sys vendor
        [processOneFile sys vendor true (pkg :: q :: r)] []
      = .ok [(pkg, { c with files := eraseKey (q :: r) c.files })]
    ∧ (lookupKey (q :: r) c.files = none → eraseKey (q :: r) c.files = c.files)
    ∧ (sys.readFile (vendor ++ pkg :: q :: r) = none →
        processFilesInVendorDir sys vendor [pkg :: q :: r] false
          = ⟨[], some (.ioError (vendor ++ pkg :: q :: r))⟩) := by
  have h1 : processOneFile sys vendor true (pkg :: q :: r)
      = .ok (pkg, q :: r, none) := by
    rw [processOneFile]
    simp only [splitFileParts]
    rw [if_pos (by simp [hmiss])]
  refine ⟨?_, ?_, ?_⟩
  · rw [h1]
    rw [mergeResults]
    simp only [mergeOne, lookupKey, hload, updateFilesEntry, insertSorted,
      mergeResults]
  · intro h
    exact eraseKey_of_lookup_none _ h
  · intro hread
    have herr : processOneFile sys vendor false (pkg :: q :: r)
        = .error (.ioError (vendor ++ pkg :: q :: r)) := by
      rw [processOneFile]
      simp only [splitFileParts]
      rw [if_neg (by simp)]
      simp only [hread]
    simp only [processFilesInVendorDir, List.map_cons, List.map_nil, herr,
      mergeResults]

theorem ignore_missing_deletion_witness :
    mergeResults sysW ["vendor"]
        [processOneFile sysW ["vendor"] true ["alpha", "gone.txt"]] []
      = .ok [("alpha",
          { files := eraseKey ["gone.txt"]
              [(["gone.txt"], "gonehash"), (["lib.rs"], "oldhash")],
            package := some "alphapkg",
            path := ["vendor", "alpha", ".cargo-checksum.json"] })]
    ∧ (lookupKey ["gone.txt"]
          [(["gone.txt"], "gonehash"), (["lib.rs"], "oldhash")] = none →
        eraseKey ["gone.txt"]
            [(["gone.txt"], "gonehash"), (["lib.rs"], "oldhash")]
          = [(["gone.txt"], "gonehash"), (["lib.rs"], "oldhash")])
    ∧ (sysW.readFile (["vendor"] ++ ["alpha", "gone.txt"]) = none →
        processFilesInVendorDir sysW ["vendor"] [["alpha", "gone.txt"]] false
          = ⟨[], some (.ioError (["vendor"] ++ ["alpha", "gone.txt"]))⟩) :=
  ignore_missing_deletion sysW ["vendor"] "alpha" "gone.txt" []
    ⟨[(["gone.txt"], "gonehash"), (["lib.rs"], "oldhash")],
      some "alphapkg", ["vendor", "alpha", ".cargo-checksum.json"]⟩
    (by decide) (by decide)

/-- C10: ignore-missing only suppresses a missing hash target.  If the
package manifest itself cannot be loaded (missing, unreadable or
unparsable), the run fails in both modes even with ignore-missing set. -/
theorem manifest_failure_unconditional (sys : Sys) (vendor : Pth)
    (pkg q : String) (r : List String) (e : Err)
    (hmiss : sys.pathExists (vendor ++ pkg :: q :: r) = false)
    (hload : loadChecksum sys (vendor ++ [pkg, cksumName]) = .error e) :
    processFilesInVendorDir sys vendor [pkg :: q :: r] true = ⟨[], some e⟩
    ∧ processPackages sys vendor true [pkg] = ⟨[], some e⟩ := by
  constructor
  · have h1 : processOneFile sys vendor true (pkg :: q :: r)
        = .ok (pkg, q :: r, none) := by
      rw [processOneFile]
      simp only [splitFileParts]
      rw [if_pos (by simp [hmiss])]
    simp only [processFilesInVendorDir, List.map_cons, List.map_nil, h1,
      mergeResults, mergeOne, lookupKey, hload]
  · have hload' : loadChecksum sys (vendor ++ [pkg] ++ [cksumName])
        = .error e := by
      rw [List.append_assoc]
      exact hload
    simp only [processPackages, processPackage, hload']

theorem manifest_failure_unconditional_witness :
    processFilesInVendorDir sysW ["vendor"] [["gamma", "x.rs"]] true
      = ⟨[], some (.ioError ["vendor", "gamma", ".cargo-checksum.json"])⟩
    ∧ processPackages sysW ["vendor"] true ["gamma"]
      = ⟨[], some (.ioError ["vendor", "gamma", ".cargo-checksum.json"])⟩ :=
  manifest_failure_unconditional sysW ["vendor"] "gamma" "x.rs" []
    (.ioError ["vendor", "gamma", ".cargo-checksum.json"])
    (by decide) (by decide)

/-- C4: Mode B only rehashes (or, under ignore-missing, deletes) keys the
manifest already lists: every key of the resulting manifest was present
when the manifest was loaded, regardless of what other files exist in the
package directory. -/
theorem modeB_no_new_keys (sys : Sys) (vendor : Pth) (im : Bool)
    (pkg : String) (c c' : Checksum)
    (hload : loadChecksum sys (vendor ++ [pkg] ++ [cksumName]) = .ok c)
    (hok : processPackage sys vendor im pkg = .ok c') :
    ∀ k ∈ keysOf c'.files, k ∈ keysOf c.files := by
  intro k hk
  rw [processPackage] at hok
  simp only [hload] at hok
  match hfd : foldDigests c.files
      ((keysOf c.files).map (rehashOneKey sys (vendor ++ [pkg]) im)) with
  | .error e =>
    simp only [hfd] at hok
    exact Except.noConfusion hok
  | .ok files =>
    simp only [hfd] at hok
    cases hok
    rcases keysOf_foldDigests _ _ _ hfd k hk with hm | ⟨pd, hpd, hfst⟩
    · exact hm
    · obtain ⟨rel, hrel, hre⟩ := List.mem_map.mp hpd
      have : pd.1 = rel := rehashOneKey_fst hre
      rw [← hfst, this]
      exact hrel

theorem modeB_no_new_keys_witness :
    (["lib.rs"] : Pth) ∈ keysOf (Checksum.mk
        [(["gone.txt"], "gonehash"), (["lib.rs"], "oldhash")]
        (some "alphapkg") ["vendor", "alpha", ".cargo-checksum.json"]).files :=
  modeB_no_new_keys sysW ["vendor"] true "alpha"
    ⟨[(["gone.txt"], "gonehash"), (["lib.rs"], "oldhash")],
      some "alphapkg", ["vendor", "alpha", ".cargo-checksum.json"]⟩
    ⟨[(["lib.rs"], "sha-LIB")],
      some "alphapkg", ["vendor", "alpha", ".cargo-checksum.json"]⟩
    (by decide) (by decide) ["lib.rs"] (by decide)

/-- C6 (amended): unknown top-level manifest fields are tolerated on load
and do not affect the parsed manifest. -/
theorem parse_ignores_unknown_fields (origin : Pth) (k : String) (v : Json)
    (pre post : List (String × Json))
    (hk₁ : "files" ≠ k) (hk₂ : "package" ≠ k) :
    parseChecksum origin (.obj (pre ++ (k, v) :: post))
      = parseChecksum origin (.obj (pre ++ post)) := by
  rw [parseChecksum, parseChecksum,
    lookupField_skip "files" k v hk₁,
    lookupField_skip "package" k v hk₂]

theorem parse_ignores_unknown_fields_witness :
    parseChecksum ["m"] (.obj ([("files", Json.obj [])]
        ++ ("zzz", Json.str "kept") :: [("package", Json.null)]))
      = parseChecksum ["m"] (.obj ([("files", Json.obj [])]
        ++ [("package", Json.null)])) :=
  parse_ignores_unknown_fields ["m"] "zzz" (Json.str "kept")
    [("files", Json.obj [])] [("package", Json.null)]
    (by decide) (by decide)

/-- The manifest text used by the C6 counterexample: well-formed, with an
unknown top-level field `zzz`. -/
def c6text : String :=
  "\x7b\"files\":\x7b\x7d,\"package\":null,\"zzz\":\"kept\"\x7d"

/-- The JSON value of `c6text`. -/
def c6json : Json :=
  Json.obj [("files", Json.obj []), ("package", Json.null),
    ("zzz", Json.str "kept")]

/-- An environment holding one manifest whose file carries the unknown
field `zzz`. -/
def sysC6 : Sys where
  readFile := fun p =>
    if p = ["vendor", "pkgx", ".cargo-checksum.json"] then some c6text else none
  pathExists := fun _ => false
  readDir := fun _ => none
  writeFile := fun _ _ => true
  jsonOfText := fun t => if t = c6text then some c6json else none
  sha256hex := fun s => s

/-- C6 fails on the code: the derived deserializer ignores the unknown
field `zzz` and the serializer emits only `files` and `package`, so the
field present in the loaded manifest text does not appear in the
rewritten manifest. -/
theorem unknown_fields_dropped_counterexample :
    loadChecksum sysC6 ["vendor", "pkgx", ".cargo-checksum.json"]
      = .ok ⟨[], none, ["vendor", "pkgx", ".cargo-checksum.json"]⟩
    ∧ serializeChecksum ⟨[], none, ["vendor", "pkgx", ".cargo-checksum.json"]⟩
      = "\x7b\"files\":\x7b\x7d,\"package\":null\x7d"
    ∧ hasSub "zzz".data c6text.data = true
    ∧ hasSub "zzz".data "\x7b\"files\":\x7b\x7d,\"package\":null\x7d".data
      = false := by
  refine ⟨by decide, by decide, by decide, by decide⟩

/-! ## Order-independence of the Mode A merge (claim C2) -/

theorem updateFilesEntry_comm {f₁ f₂ : Pth} (hne : f₁ ≠ f₂)
    (d₁ d₂ : Option String) {F : List (Pth × String)}
    (hF : SortedBy pthLt F) :
    updateFilesEntry (updateFilesEntry F f₁ d₁) f₂ d₂
      = updateFilesEntry (updateFilesEntry F f₂ d₂) f₁ d₁ := by
  cases d₁ with
  | some v₁ =>
    cases d₂ with
    | some v₂ =>
      exact insertSorted_comm pthLt_irr pthLt_tr pthLt_cn hne v₁ v₂ hF
    | none =>
      exact eraseKey_insertSorted_comm pthLt_irr pthLt_tr pthLt_cn hne v₁ hF
  | none =>
    cases d₂ with
    | some v₂ =>
      exact (eraseKey_insertSorted_comm pthLt_irr pthLt_tr pthLt_cn
        (Ne.symm hne) v₂ hF).symm
    | none =>
      exact eraseKey_comm pthLt_irr pthLt_tr f₁ f₂ hF

/-- Anatomy of a successful merge step: the manifest comes from the
accumulator or from a fresh load, and the result re-inserts it with the
entry applied. -/
theorem mergeOne_ok {sys : Sys} {vendor : Pth} {acc : List (String × Checksum)}
    {pkg : String} {f : Pth} {d : Option String} {a : List (String × Checksum)}
    (h : mergeOne sys vendor acc pkg f d = .ok a) :
    ∃ c, (lookupKey pkg acc = some c ∨
          (lookupKey pkg acc = none ∧
            loadChecksum sys (vendor ++ [pkg, cksumName]) = .ok c))
      ∧ a = insertSorted segLt pkg
          { c with files := updateFilesEntry c.files f d } acc := by
  rw [mergeOne] at h
  match hl : lookupKey pkg acc with
  | some c =>
    simp only [hl] at h
    cases h
    exact ⟨c, Or.inl rfl, rfl⟩
  | none =>
    simp only [hl] at h
    match hld : loadChecksum sys (vendor ++ [pkg, cksumName]) with
    | .error e => simp only [hld] at h; exact Except.noConfusion h
    | .ok c =>
      simp only [hld] at h
      cases h
      exact ⟨c, Or.inr ⟨rfl, rfl⟩, rfl⟩

theorem mergeOne_of_lookup {sys : Sys} {vendor : Pth}
    {acc : List (String × Checksum)} {pkg : String} {c : Checksum}
    (hl : lookupKey pkg acc = some c) (f : Pth) (d : Option String) :
    mergeOne sys vendor acc pkg f d = .ok (insertSorted segLt pkg
      { c with files := updateFilesEntry c.files f d } acc) := by
  rw [mergeOne]
  simp only [hl]

theorem mergeOne_of_load {sys : Sys} {vendor : Pth}
    {acc : List (String × Checksum)} {pkg : String} {c : Checksum}
    (hl : lookupKey pkg acc = none)
    (hld : loadChecksum sys (vendor ++ [pkg, cksumName]) = .ok c)
    (f : Pth) (d : Option String) :
    mergeOne sys vendor acc pkg f d = .ok (insertSorted segLt pkg
      { c with files := updateFilesEntry c.files f d } acc) := by
  rw [mergeOne]
  simp only [hl, hld]

/-- Two successful merge steps for different requests commute. -/
theorem mergeOne_comm {sys : Sys} {vendor : Pth}
    {acc : List (String × Checksum)} (hinv : AccInv acc)
    {p₁ p₂ : String} {f₁ f₂ : Pth} {d₁ d₂ : Option String}
    (hne : ¬(p₁ = p₂ ∧ f₁ = f₂))
    {a₁ a₂ : List (String × Checksum)}
    (h₁ : mergeOne sys vendor acc p₁ f₁ d₁ = .ok a₁)
    (h₂ : mergeOne sys vendor a₁ p₂ f₂ d₂ = .ok a₂) :
    ∃ b₁, mergeOne sys vendor acc p₂ f₂ d₂ = .ok b₁
      ∧ mergeOne sys vendor b₁ p₁ f₁ d₁ = .ok a₂ := by
  obtain ⟨hsort, hfiles⟩ := hinv
  obtain ⟨c₁, hc₁, ha₁⟩ := mergeOne_ok h₁
  obtain ⟨c₂, hc₂, ha₂⟩ := mergeOne_ok h₂
  have hc₁files : SortedBy pthLt c₁.files := by
    rcases hc₁ with h | ⟨_, hld⟩
    · exact hfiles (p₁, c₁) (mem_of_lookupKey h)
    · exact sortedBy_loadChecksum hld
  by_cases hp : p₁ = p₂
  · subst hp
    have hf : f₁ ≠ f₂ := fun he => hne ⟨rfl, he⟩
    have hl₂ : lookupKey p₁ a₁
        = some { c₁ with files := updateFilesEntry c₁.files f₁ d₁ } := by
      rw [ha₁, lookupKey_insertSorted]
      simp
    have hc₂' : c₂ = { c₁ with files := updateFilesEntry c₁.files f₁ d₁ } := by
      rcases hc₂ with h | ⟨hn, _⟩
      · rw [hl₂] at h
        exact (Option.some.inj h).symm
      · rw [hl₂] at hn
        exact Option.noConfusion hn
    refine ⟨insertSorted segLt p₁
      { c₁ with files := updateFilesEntry c₁.files f₂ d₂ } acc, ?_, ?_⟩
    · rcases hc₁ with h | ⟨hn, hld⟩
      · exact mergeOne_of_lookup h f₂ d₂
      · exact mergeOne_of_load hn hld f₂ d₂
    · have hlb : lookupKey p₁ (insertSorted segLt p₁
          { c₁ with files := updateFilesEntry c₁.files f₂ d₂ } acc)
          = some { c₁ with files := updateFilesEntry c₁.files f₂ d₂ } := by
        rw [lookupKey_insertSorted]
        simp
      rw [mergeOne_of_lookup hlb f₁ d₁]
      congr 1
      rw [ha₂, hc₂', ha₁]
      show insertSorted segLt p₁
          (Checksum.mk
            (updateFilesEntry (updateFilesEntry c₁.files f₂ d₂) f₁ d₁)
            c₁.package c₁.path)
          (insertSorted segLt p₁
            (Checksum.mk (updateFilesEntry c₁.files f₂ d₂)
              c₁.package c₁.path) acc)
        = insertSorted segLt p₁
          (Checksum.mk
            (updateFilesEntry (updateFilesEntry c₁.files f₁ d₁) f₂ d₂)
            c₁.package c₁.path)
          (insertSorted segLt p₁
            (Checksum.mk (updateFilesEntry c₁.files f₁ d₁)
              c₁.package c₁.path) acc)
      rw [insertSorted_collapse segLt_irr segLt_tr segLt_cn _ _ _ hsort,
        insertSorted_collapse segLt_irr segLt_tr segLt_cn _ _ _ hsort,
        updateFilesEntry_comm hf d₁ d₂ hc₁files]
  · have hl₂acc : lookupKey p₂ a₁ = lookupKey p₂ acc := by
      rw [ha₁, lookupKey_insertSorted, if_neg (Ne.symm hp)]
    have hc₂acc : lookupKey p₂ acc = some c₂
        ∨ (lookupKey p₂ acc = none
            ∧ loadChecksum sys (vendor ++ [p₂, cksumName]) = .ok c₂) := by
      rcases hc₂ with h | ⟨hn, hld⟩
      · left
        rw [← hl₂acc]
        exact h
      · right
        exact ⟨by rw [← hl₂acc]; exact hn, hld⟩
    refine ⟨insertSorted segLt p₂
      { c₂ with files := updateFilesEntry c₂.files f₂ d₂ } acc, ?_, ?_⟩
    · rcases hc₂acc with h | ⟨hn, hld⟩
      · exact mergeOne_of_lookup h f₂ d₂
      · exact mergeOne_of_load hn hld f₂ d₂
    · have hl₁b : lookupKey p₁ (insertSorted segLt p₂
          { c₂ with files := updateFilesEntry c₂.files f₂ d₂ } acc)
          = lookupKey p₁ acc := by
        rw [lookupKey_insertSorted, if_neg hp]
      have hfin : insertSorted segLt p₁
          { c₁ with files := updateFilesEntry c₁.files f₁ d₁ }
          (insertSorted segLt p₂
            { c₂ with files := updateFilesEntry c₂.files f₂ d₂ } acc)
          = a₂ := by
        rw [ha₂, ha₁]
        exact insertSorted_comm segLt_irr segLt_tr segLt_cn (Ne.symm hp) _ _ hsort
      rcases hc₁ with h | ⟨hn, hld⟩
      · rw [mergeOne_of_lookup (show lookupKey p₁ (insertSorted segLt p₂
            { c₂ with files := updateFilesEntry c₂.files f₂ d₂ } acc)
            = some c₁ by rw [hl₁b]; exact h) f₁ d₁]
        rw [hfin]
      · rw [mergeOne_of_load (show lookupKey p₁ (insertSorted segLt p₂
            { c₂ with files := updateFilesEntry c₂.files f₂ d₂ } acc)
            = none by rw [hl₁b]; exact hn) hld f₁ d₁]
        rw [hfin]

/-- The request identity of a Mode A task result: package and in-package
path for a successful task, nothing for a failed one. -/
def resKey : Except Err (String × Pth × Option String) → Option (String × Pth)
  | .ok (p, f, _) => some (p, f)
  | .error _ => none

theorem resKey_some {r : Except Err (String × Pth × Option String)}
    {k : String × Pth} (h : resKey r = some k) :
    ∃ d, r = .ok (k.1, k.2, d) := by
  match r with
  | .error e => exact Option.noConfusion h
  | .ok (p, f, d) =>
    simp only [resKey] at h
    cases h
    exact ⟨d, rfl⟩

theorem nodup_tail_resKey {x : Except Err (String × Pth × Option String)}
    {l : List (Except Err (String × Pth × Option String))}
    (h : ((x :: l).filterMap resKey).Nodup) : (l.filterMap resKey).Nodup := by
  rw [List.filterMap_cons] at h
  match hk : resKey x with
  | none =>
    rw [hk] at h
    exact h
  | some k =>
    rw [hk] at h
    exact List.Nodup.of_cons h

/-- Order-independence of the Mode A merge loop: permuting task results
whose request identities are pairwise distinct cannot change a successful
outcome. -/
theorem mergeResults_perm {sys : Sys} {vendor : Pth}
    {rs rs' : List (Except Err (String × Pth × Option String))}
    (hperm : rs.Perm rs')
    (hnd : (rs.filterMap resKey).Nodup) :
    ∀ acc out, AccInv acc → mergeResults sys vendor rs acc = .ok out →
      mergeResults sys vendor rs' acc = .ok out := by
  induction hperm with
  | nil =>
    intro acc out _ h
    exact h
  | cons x t ih =>
    intro acc out hinv h
    match x with
    | .error e => exact Except.noConfusion h
    | .ok (p, f, d) =>
      rw [mergeResults] at h ⊢
      match hm : mergeOne sys vendor acc p f d with
      | .error e =>
        simp only [hm] at h
        exact Except.noConfusion h
      | .ok acc' =>
        simp only [hm] at h ⊢
        exact ih (nodup_tail_resKey hnd) acc' out (mergeOne_inv hinv hm) h
  | swap x y t =>
    intro acc out hinv h
    match y with
    | .error e => exact Except.noConfusion h
    | .ok (py, fy, dy) =>
      rw [mergeResults] at h
      match hmy : mergeOne sys vendor acc py fy dy with
      | .error e =>
        simp only [hmy] at h
        exact Except.noConfusion h
      | .ok a₁ =>
        simp only [hmy] at h
        match x with
        | .error e => exact Except.noConfusion h
        | .ok (px, fx, dx) =>
          rw [mergeResults] at h
          match hmx : mergeOne sys vendor a₁ px fx dx with
          | .error e =>
            simp only [hmx] at h
            exact Except.noConfusion h
          | .ok a₂ =>
            simp only [hmx] at h
            have hne : ¬(py = px ∧ fy = fx) := by
              intro ⟨hp, hf⟩
              have : ((py, fy) : String × Pth) = (px, fx) := by
                rw [hp, hf]
              simp only [List.filterMap_cons, resKey] at hnd
              rw [this] at hnd
              exact (List.nodup_cons.mp hnd).1 (by simp)
            obtain ⟨b₁, hb₁, hb₂⟩ := mergeOne_comm hinv hne hmy hmx
            rw [mergeResults]
            simp only [hb₁]
            rw [mergeResults]
            simp only [hb₂]
            exact h
  | trans h₁ h₂ ih₁ ih₂ =>
    intro acc out hinv h
    have hnd₂ := (List.Perm.nodup_iff (h₁.filterMap resKey)).mp hnd
    exact ih₂ hnd₂ acc out hinv (ih₁ hnd acc out hinv h)

/-- Distinct requested paths have distinct request identities. -/
theorem resKeys_nodup (sys : Sys) (vendor : Pth) (im : Bool)
    {files : List Pth} (h : files.Nodup) :
    ((files.map (processOneFile sys vendor im)).filterMap resKey).Nodup := by
  rw [List.filterMap_map]
  refine List.Nodup.filterMap ?_ h
  intro a a' b hb hb'
  rw [Option.mem_def] at hb hb'
  obtain ⟨d, hd⟩ := resKey_some hb
  obtain ⟨d', hd'⟩ := resKey_some hb'
  have ha : a = b.1 :: b.2 := processOneFile_key hd
  have ha' : a' = b.1 :: b.2 := processOneFile_key hd'
  rw [ha, ha']

/-- Mode B results always carry a sorted `files` map. -/
theorem sortedBy_processPackage {sys : Sys} {vendor : Pth} {im : Bool}
    {pkg : String} {c' : Checksum}
    (h : processPackage sys vendor im pkg = .ok c') :
    SortedBy pthLt c'.files := by
  rw [processPackage] at h
  match hld : loadChecksum sys (vendor ++ [pkg] ++ [cksumName]) with
  | .error e =>
    simp only [hld] at h
    exact Except.noConfusion h
  | .ok c =>
    simp only [hld] at h
    match hfd : foldDigests c.files
        ((keysOf c.files).map (rehashOneKey sys (vendor ++ [pkg]) im)) with
    | .error e =>
      simp only [hfd] at h
      exact Except.noConfusion h
    | .ok files =>
      simp only [hfd] at h
      cases h
      exact sortedBy_foldDigests _ _ _ (sortedBy_loadChecksum hld) hfd

/-- C2: Mode A is deterministic in the request order, and every manifest
an update run produces keeps its `files` map strictly sorted by path, so
its serialization (which emits entries in map order) lists keys in
canonical lexicographic order and is byte-identical across such runs.
Distinct requests are assumed (`files.Nodup`); the run outcome, writes
included, is then invariant under permuting the request list. -/
theorem modeA_deterministic_sorted (sys : Sys) (vendor : Pth) (im : Bool)
    (files files' : List Pth) (cks : List (String × Checksum))
    (hnd : files.Nodup) (hperm : files.Perm files')
    (hok : mergeResults sys vendor
        (files.map (processOneFile sys vendor im)) [] = .ok cks) :
    mergeResults sys vendor
        (files'.map (processOneFile sys vendor im)) [] = .ok cks
    ∧ processFilesInVendorDir sys vendor files' im
        = processFilesInVendorDir sys vendor files im
    ∧ (∀ x ∈ cks, SortedBy pthLt x.2.files)
    ∧ (∀ pkg c', processPackage sys vendor im pkg = .ok c' →
        SortedBy pthLt c'.files) := by
  have hok' : mergeResults sys vendor
      (files'.map (processOneFile sys vendor im)) [] = .ok cks :=
    mergeResults_perm (hperm.map (processOneFile sys vendor im))
      (resKeys_nodup sys vendor im hnd) [] cks accInv_nil hok
  refine ⟨hok', ?_, ?_, ?_⟩
  · simp only [processFilesInVendorDir, hok, hok']
  · exact fun x hx => (mergeResults_inv accInv_nil hok).2 x hx
  · exact fun pkg c' h => sortedBy_processPackage h

theorem modeA_deterministic_sorted_witness :
    mergeResults sysW ["vendor"]
        ([["alpha", "gone.txt"], ["alpha", "lib.rs"]].map
          (processOneFile sysW ["vendor"] true)) []
      = .ok [("alpha", ⟨[(["lib.rs"], "sha-LIB")], some "alphapkg",
          ["vendor", "alpha", ".cargo-checksum.json"]⟩)]
    ∧ processFilesInVendorDir sysW ["vendor"]
        [["alpha", "gone.txt"], ["alpha", "lib.rs"]] true
      = processFilesInVendorDir sysW ["vendor"]
        [["alpha", "lib.rs"], ["alpha", "gone.txt"]] true
    ∧ (∀ x ∈ [("alpha", (⟨[(["lib.rs"], "sha-LIB")], some "alphapkg",
          ["vendor", "alpha", ".cargo-checksum.json"]⟩ : Checksum))],
        SortedBy pthLt x.2.files)
    ∧ (∀ pkg c', processPackage sysW ["vendor"] true pkg = .ok c' →
        SortedBy pthLt c'.files) :=
  modeA_deterministic_sorted sysW ["vendor"] true
    [["alpha", "lib.rs"], ["alpha", "gone.txt"]]
    [["alpha", "gone.txt"], ["alpha", "lib.rs"]]
    [("alpha", ⟨[(["lib.rs"], "sha-LIB")], some "alphapkg",
      ["vendor", "alpha", ".cargo-checksum.json"]⟩)]
    (by decide) (by decide) (by decide)
